import Mathlib

/-!
# Verification of the fairpyx allocation engine

Shallow embedding of the repository's allocation code:

* `src/fairpyx/algorithms/picking_sequence.py`
  (`picking_sequence`, `serial_dictatorship`, `round_robin`,
  `bidirectional_round_robin`);
* `src/fairpyx/algorithms/Optimization_based_Mechanisms/SP_O.py`
  (`SP_O_function`).

The repository's `Instance` / `AllocationBuilder` / `divide` classes are not
part of the packaged sources; the mutable allocation state and its operations
are therefore modelled from the specification (sections 3, 4.1 and 6 of the
spec), as noted on each such definition.  Machine-level numbers in the source
are Python integers; they are embedded as `Nat`.  Fallible operations
(`give` preconditions, Python `KeyError` / `IndexError` / `TypeError`)
are embedded with `Except`.  The external cvxpy solver is embedded as an
opaque oracle supplying each iteration's solve outcomes, following the spec's
black-box solver contract (spec section 9).
-/

namespace FairAlloc

/-! ## Association-list primitives

The Python dictionaries (`remaining_agent_capacities`,
`remaining_item_capacities`, `bundles`, valuation tables) are embedded as
association lists over `String` keys, preserving insertion order, which is
the iteration order of a Python dict. -/

/-- Lookup of the first binding of key `k`, as Python `d.get(k)` /
`k in d`. -/
def alookup {β : Type} (k : String) : List (String × β) → Option β
  | [] => none
  | (k', v) :: t => if k' = k then some v else alookup k t

/-- Keys of an association list, in insertion order. -/
def akeys {β : Type} (l : List (String × β)) : List String :=
  l.map (fun p => p.1)

/-- Remove the first binding of key `k` (Python `del d[k]`). -/
def aerase {β : Type} (k : String) : List (String × β) → List (String × β)
  | [] => []
  | (k', v) :: t => if k' = k then t else (k', v) :: aerase k t

/-- Decrement the capacity stored under `k` by one; when it reaches zero the
binding is dropped, which is the spec's rule that agents/items with zero
remaining capacity are absent from the remaining-capacity maps. -/
def adec (k : String) : List (String × Nat) → List (String × Nat)
  | [] => []
  | (k', v) :: t =>
    if k' = k then (if v ≤ 1 then t else (k', v - 1) :: t)
    else (k', v) :: adec k t

/-- Append item `i` to the bundle stored under `a`; insert a new binding when
the agent has no bundle entry yet. -/
def abApp (a i : String) : List (String × List String) → List (String × List String)
  | [] => [(a, [i])]
  | (k, b) :: t => if k = a then (k, b ++ [i]) :: t else (k, b) :: abApp a i t

/-! ## The allocation state

Modelled from the spec (section 3): an `AllocationBuilder` holds the mutable
remaining capacities, remaining forbidden (agent, item) pairs and the
pick-ordered bundles; the immutable valuation table and item-conflict table
of the underlying `Instance` are carried alongside since the operations
consult them. -/

structure AllocState where
  agentCaps : List (String × Nat)
  itemCaps : List (String × Nat)
  conflicts : List (String × String)
  bundles : List (String × List String)
  val : List (String × List (String × Nat))
  itemConf : List (String × List String)
deriving Repr, DecidableEq

/-- Modelled from the spec (section 4.1): `remaining_agents()`, the agents
with remaining capacity, in original order. -/
def remainingAgents (s : AllocState) : List String :=
  akeys s.agentCaps

/-- Modelled from the spec (section 4.1): `remaining_items()`. -/
def remainingItems (s : AllocState) : List String :=
  akeys s.itemCaps

/-- Modelled from the spec (section 4.1): `effective_value(agent, item)`,
the instance valuation (identity transform). -/
def effective_value (s : AllocState) (a i : String) : Nat :=
  (alookup i ((alookup a s.val).getD [])).getD 0

/-- Item-conflict set declared against item `i` (spec section 3,
`item_conflicts`). -/
def conflictsOf (s : AllocState) (i : String) : List String :=
  (alookup i s.itemConf).getD []

/-- The pick-ordered bundle of agent `a`. -/
def bundleOf (s : AllocState) (a : String) : List String :=
  (alookup a s.bundles).getD []

/-- Modelled from the spec (section 4.1): `remaining_items_for_agent(agent)` —
items with remaining capacity, not forbidden for this agent, not already in
the agent's bundle, and not item-conflicting with any bundle item. -/
def remaining_items_for_agent (s : AllocState) (a : String) : List String :=
  (remainingItems s).filter (fun i =>
    !(s.conflicts.contains (a, i))
    && !((bundleOf s a).contains i)
    && (bundleOf s a).all (fun b => !((conflictsOf s b).contains i) && !((conflictsOf s i).contains b)))

/-- Modelled from the spec (section 3, invariant 4): `isdone()` holds iff no
item or no agent has remaining capacity. -/
def isdone (s : AllocState) : Bool :=
  s.itemCaps.isEmpty || s.agentCaps.isEmpty

/-- Errors the embedded Python code can raise. -/
inductive AllocErr where
  | noAgentCapacity
  | noItemCapacity
  | forbiddenPair
  | keyError
deriving Repr, DecidableEq

/-- The successful post-state of `give` (spec section 4.1): decrement both
capacities, append the item to the bundle, and forbid every item-conflicting
partner of the given item for this agent. -/
def giveS (s : AllocState) (a i : String) : AllocState :=
  { s with
    agentCaps := adec a s.agentCaps
    itemCaps := adec i s.itemCaps
    bundles := abApp a i s.bundles
    conflicts := s.conflicts ++ (conflictsOf s i).map (fun c => (a, c)) }

/-- Modelled from the spec (section 4.1): `give(agent, item)`.  Precondition:
both have remaining capacity and the pair is not forbidden; a violation is a
caller error. -/
def give (s : AllocState) (a i : String) : Except AllocErr AllocState :=
  match alookup a s.agentCaps with
  | none => .error .noAgentCapacity
  | some _ =>
    match alookup i s.itemCaps with
    | none => .error .noItemCapacity
    | some _ =>
      if s.conflicts.contains (a, i) then .error .forbiddenPair
      else .ok (giveS s a i)

/-- Modelled from the spec (section 4.1): `remove_agent_from_loop(agent)`. -/
def removeAgent (s : AllocState) (a : String) : AllocState :=
  { s with agentCaps := aerase a s.agentCaps }

/-! ## The picking-sequence engine

`picking_sequence(alloc, agent_order)` in `picking_sequence.py` cycles over
`agent_order` forever (`itertools.cycle`), breaking only when `isdone()`
holds; with an empty `agent_order` the `for` loop ends at once.  The loop is
embedded with explicit fuel counting loop turns; `finished = false` means the
fuel ran out before the loop ended on its own.  A trace records the
observable builder calls (`isdone` check, `give`, `remove_agent_from_loop`). -/

inductive Event where
  | checkDone
  | giveEv (a i : String)
  | removeEv (a : String)
deriving Repr, DecidableEq

structure RunRes where
  state : AllocState
  trace : List Event
  finished : Bool
deriving Repr, DecidableEq

instance {ε α : Type} [DecidableEq ε] [DecidableEq α] : DecidableEq (Except ε α)
  | .error x, .error y =>
    if h : x = y then .isTrue (by rw [h]) else .isFalse (fun hc => h (by cases hc; rfl))
  | .error _, .ok _ => .isFalse (fun hc => by cases hc)
  | .ok _, .error _ => .isFalse (fun hc => by cases hc)
  | .ok x, .ok y =>
    if h : x = y then .isTrue (by rw [h]) else .isFalse (fun hc => h (by cases hc; rfl))

/-- Python's `max(iterable, key=f)`: the first element attaining the maximal
key, scanned left to right (strictly greater keys replace the current best).
`picking_sequence.py` line 44 applies it to the potential items. -/
def pickBest (f : String → Nat) : String → List String → String
  | b, [] => b
  | b, x :: t => if f x > f b then pickBest f x t else pickBest f b t

/-- One turn of the cyclic loop body of `picking_sequence` after the
`isdone` check (lines 36–46 of `picking_sequence.py`): skip an agent without
remaining capacity; remove an agent with no pickable item; otherwise give the
agent its best remaining item. -/
def pickTurn (s : AllocState) (a : String) : Except AllocErr (AllocState × List Event) :=
  match alookup a s.agentCaps with
  | none => .ok (s, [])
  | some _ =>
    match remaining_items_for_agent s a with
    | [] => .ok (removeAgent s a, [.removeEv a])
    | i :: rest =>
      match give s a (pickBest (effective_value s a) i rest) with
      | .error e => .error e
      | .ok s' => .ok (s', [.giveEv a (pickBest (effective_value s a) i rest)])

/-- The cyclic loop of `picking_sequence` (lines 32–46): turn number `idx`
processes agent `agent_order[idx % len]`; each entered turn first calls
`isdone` and breaks when it holds. -/
def runAux (order : List String) : Nat → Nat → AllocState → Except AllocErr RunRes
  | 0, _, s => .ok ⟨s, [], false⟩
  | fuel + 1, idx, s =>
    if isdone s then .ok ⟨s, [.checkDone], true⟩
    else
      match pickTurn s (order.getD (idx % order.length) "") with
      | .error e => .error e
      | .ok (s', ev) =>
        match runAux order fuel (idx + 1) s' with
        | .error e => .error e
        | .ok r => .ok ⟨r.state, .checkDone :: (ev ++ r.trace), r.finished⟩

/-- `picking_sequence(alloc, agent_order)`: cycling over an empty order ends
immediately; otherwise run the cyclic loop. -/
def picking_sequence (s : AllocState) (order : List String) (fuel : Nat) :
    Except AllocErr RunRes :=
  if order.isEmpty then .ok ⟨s, [], true⟩
  else runAux order fuel 0 s

/-- `serial_dictatorship` line 67: the flattened order
`sum([remaining_agent_capacities[agent] * [agent] for agent in agent_order], [])`;
the subscript raises `KeyError` for an agent absent from the remaining
capacities. -/
def flattenOrder (s : AllocState) : List String → Except AllocErr (List String)
  | [] => .ok []
  | a :: t =>
    match alookup a s.agentCaps with
    | none => .error .keyError
    | some c =>
      match flattenOrder s t with
      | .error e => .error e
      | .ok rest => .ok (List.replicate c a ++ rest)

/-- `serial_dictatorship(alloc, agent_order)` (lines 49–68): flatten the
order by remaining capacities, then run `picking_sequence`. -/
def serial_dictatorship (s : AllocState) (order : List String) (fuel : Nat) :
    Except AllocErr RunRes :=
  match flattenOrder s order with
  | .error e => .error e
  | .ok flat => picking_sequence s flat fuel

/-- Modelled from the spec, for the refinement claim only (spec section 4.2):
the flattened sequence in which each agent of `agent_order` appears
consecutively a number of times equal to its remaining agent capacity. -/
def flatOrderSpec (s : AllocState) (order : List String) : List String :=
  (order.map (fun a => List.replicate ((alookup a s.agentCaps).getD 0) a)).flatten

/-- `round_robin(alloc)` with the default order (lines 71–99): the picking
sequence over `remaining_agents()`. -/
def round_robin (s : AllocState) (fuel : Nat) : Except AllocErr RunRes :=
  picking_sequence s (remainingAgents s) fuel

/-! ## The SP-O mechanism (`SP_O.py`)

The cvxpy solver is opaque: an `IterOracle` supplies, per iteration, the
outcome of the stage-1 solve (`result_Zt1`, which the code compares against
`None`, and the boolean variable matrix `x.value`) and the stage-2/3 solve
values.  Everything the code computes around the solves — the rank matrix,
the constraint systems, the commit loop — is embedded faithfully, including
its index arithmetic. -/

/-- Errors an SP-O iteration can raise in Python. -/
inductive SpErr where
  | noneTypeMul
  | indexError
  | valueErrorMaxEmpty
  | giveErr (e : AllocErr)
deriving Repr, DecidableEq

/-- Per-iteration solver outcomes (`problem.solve()` results and `x.value`).
`z = none` models the "no optimal value" outcome that line 119's
`result_Zt1 is not None` test is written to detect. -/
structure IterOracle where
  z : Option Int
  x : Nat → Nat → Bool
  w1 : Int
  w2 : Int

/-- `sorted_courses` (line 45): the agent's remaining eligible items sorted
stably by ascending effective value (Python's `sorted` with that key; any
stable sort computes the same list). -/
def sortedCourses (s : AllocState) (student : String) : List String :=
  List.insertionSort
    (fun a b => effective_value s student a ≤ effective_value s student b)
    (remaining_items_for_agent s student)

/-- The rank matrix (lines 41–51): one row per remaining item, one column
per remaining agent; an eligible item's entry is its index in the agent's
ascending `sorted_courses` plus one, an ineligible item's entry is the
eligible-list length plus one. -/
def rankMat (s : AllocState) : List (List Nat) :=
  (remainingItems s).map (fun course =>
    (remainingAgents s).map (fun student =>
      let sc := sortedCourses s student
      if sc.contains course then sc.indexOf course + 1 else sc.length + 1))

/-- Number of items assigned to agent column `j` by the boolean matrix
(`cp.sum(x[:, j])` in constraint (8), line 74). -/
def colSum (s : AllocState) (x : Nat → Nat → Bool) (j : Nat) : Nat :=
  (List.range (remainingItems s).length).countP (fun i => x i j)

/-- Number of agents assigned to item row `i` (`cp.sum(x[i, :])` in
constraint (7), line 65). -/
def rowSum (s : AllocState) (x : Nat → Nat → Bool) (i : Nat) : Nat :=
  (List.range (remainingAgents s).length).countP (fun j => x i j)

/-- The stage-1 constraint system (lines 60–74): row sums bounded by the
remaining item capacities, forbidden pairs forced to zero, column sums at
most one. -/
def stage1Sat (s : AllocState) (x : Nat → Nat → Bool) : Bool :=
  ((List.range (remainingItems s).length).all (fun i =>
      decide (rowSum s x i ≤ ((alookup ((remainingItems s).getD i "") s.itemCaps).getD 0))
      && (List.range (remainingAgents s).length).all (fun j =>
          !(s.conflicts.contains ((remainingAgents s).getD j "", (remainingItems s).getD i "")
            && x i j))))
  && (List.range (remainingAgents s).length).all (fun j => decide (colSum s x j ≤ 1))

/-- One stage-2 constraint `p[j] + v[i] + rank_mat[i][j] * D >=
effective_value(student, course)` recorded structurally: the price index,
the value index, the rank coefficient and the right-hand side. -/
structure DualC where
  pIdx : Nat
  vIdx : Nat
  rankCoeff : Nat
  rhs : Nat
deriving Repr, DecidableEq

/-- The `rank_mat[i][j]` subscript of line 92, with Python's `IndexError`
as `none` when an index is out of range. -/
def rankAt (rank : List (List Nat)) (i j : Nat) : Option Nat :=
  match rank.get? i with
  | none => none
  | some row => row.get? j

/-- Inner loop of lines 90–94 for a fixed item index `j`: iterate the agent
indices `i`, reading `rank_mat[i][j]`. -/
def dualConsRow (s : AllocState) (rank : List (List Nat)) (j : Nat) :
    List (Nat × String) → Except SpErr (List DualC)
  | [] => .ok []
  | (i, student) :: t =>
    match rankAt rank i j with
    | none => .error .indexError
    | some rc =>
      match dualConsRow s rank j t with
      | .error e => .error e
      | .ok rest =>
        .ok (⟨j, i, rc, effective_value s student ((remainingItems s).getD j "")⟩ :: rest)

/-- The stage-2 constraint construction (lines 90–94): outer loop over item
indices `j`, inner loop over agent indices `i`; note that the code indexes
the items-by-agents matrix `rank_mat` as `rank_mat[i][j]`, i.e. with the
agent index selecting a row and the item index selecting a column. -/
def buildDualConstraints (s : AllocState) (rank : List (List Nat)) :
    List Nat → Except SpErr (List DualC)
  | [] => .ok []
  | j :: t =>
    match dualConsRow s rank j (remainingAgents s).enum with
    | .error e => .error e
    | .ok cs =>
      match buildDualConstraints s rank t with
      | .error e => .error e
      | .ok rest => .ok (cs ++ rest)

/-- Insert-or-overwrite for the Python dict `assign_map_course_to_student`
(line 128): an existing key keeps its position and gets the new value. -/
def dinsert (k v : String) : List (String × String) → List (String × String)
  | [] => [(k, v)]
  | (k', v') :: t => if k' = k then (k, v) :: t else (k', v') :: dinsert k v t

/-- The commit map construction (lines 124–128): for each remaining agent
(outer loop) and each remaining item (inner loop), a set entry of the matrix
overwrites the dict entry for that agent. -/
def assignMap (s : AllocState) (x : Nat → Nat → Bool) : List (String × String) :=
  ((remainingAgents s).enum.foldl (fun m p =>
    ((remainingItems s).enum.foldl (fun m2 q =>
      if x q.1 p.1 then dinsert p.2 q.2 m2 else m2) m)) [])

/-- The commit loop (lines 130–131): `give` each dict entry in insertion
order; a `give` failure raises. -/
def commitGives (s : AllocState) : List (String × String) → Except SpErr AllocState
  | [] => .ok s
  | (student, course) :: t =>
    match give s student course with
    | .error e => .error (.giveErr e)
    | .ok s' => commitGives s' t

/-- One iteration of `SP_O_function` (lines 41–137): build the rank matrix;
take the stage-1 solve outcome from the oracle; build the stage-2 objective —
line 83 multiplies `result_Zt1` into it, which raises when the solve
returned `None` — then the stage-2 constraints (line 92's subscript can
raise `IndexError`); the stage-2/3 solves are opaque; finally the commit
phase runs, its guard `result_Zt1 is not None` being true on every path
that reaches it. -/
def SP_O_iteration (s : AllocState) (o : IterOracle) : Except SpErr AllocState :=
  let rank := rankMat s
  match o.z with
  | none => .error .noneTypeMul
  | some _ =>
    match buildDualConstraints s rank (List.range (remainingItems s).length) with
    | .error e => .error e
    | .ok _ => commitGives s (assignMap s o.x)

/-- The iteration loop, counting completed iterations. -/
def runIterations (oracle : Nat → IterOracle) :
    List Nat → AllocState → Nat → Except SpErr (AllocState × Nat)
  | [], s, c => .ok (s, c)
  | it :: rest, s, c =>
    match SP_O_iteration s (oracle it) with
    | .error e => .error e
    | .ok s' => runIterations oracle rest s' (c + 1)

/-- `max_iterations` (lines 37–38): the largest remaining capacity among the
remaining agents; Python's `max` raises on an empty sequence. -/
def maxCap (s : AllocState) : Nat :=
  s.agentCaps.foldl (fun m p => max m p.2) 0

/-- `SP_O_function(alloc)`: `max_iterations` iterations of the two-stage
mechanism; an uncaught Python exception anywhere aborts the whole run. -/
def SP_O_run (s : AllocState) (oracle : Nat → IterOracle) :
    Except SpErr (AllocState × Nat) :=
  if s.agentCaps.isEmpty then .error .valueErrorMaxEmpty
  else runIterations oracle (List.range (maxCap s)) s 0

/-! ## Termination vocabulary and concrete instances -/

/-- The loop of `picking_sequence` ends on its own with some finite fuel. -/
def pickingTerminates (s : AllocState) (order : List String) : Prop :=
  ∃ fuel r, picking_sequence s order fuel = .ok r ∧ r.finished = true

/-- Every agent with remaining capacity occurs in the picking order. -/
def coverage (s : AllocState) (order : List String) : Prop :=
  ∀ a ∈ remainingAgents s, a ∈ order

/-- Termination measure: each remaining-capacity binding contributes its
capacity plus one, so both a `give` and a `remove_agent_from_loop` strictly
decrease it. -/
def capMeasure (l : List (String × Nat)) : Nat :=
  l.foldr (fun p acc => p.2 + 1 + acc) 0

/-- Measure of an allocation state: the remaining agent-capacity bindings. -/
def stateMeasure (s : AllocState) : Nat :=
  capMeasure s.agentCaps

/-- The builder state of the doctests of `picking_sequence.py` (agents
Alice, Bob, Chana, Dana with capacities 2, 3, 2, 3; items c1, c2, c3 with
capacities 2, 3, 4; the section 4.2 valuations; no conflicts). -/
def exC4 : AllocState :=
  { agentCaps := [("Alice", 2), ("Bob", 3), ("Chana", 2), ("Dana", 3)]
    itemCaps := [("c1", 2), ("c2", 3), ("c3", 4)]
    conflicts := []
    bundles := [("Alice", []), ("Bob", []), ("Chana", []), ("Dana", [])]
    val := [("Alice", [("c1", 10), ("c2", 8), ("c3", 6)]),
            ("Bob", [("c1", 10), ("c2", 8), ("c3", 6)]),
            ("Chana", [("c1", 6), ("c2", 8), ("c3", 10)]),
            ("Dana", [("c1", 6), ("c2", 8), ("c3", 10)])]
    itemConf := [] }

/-- The builder state of the doctest of `SP_O.py` (agents s1, s2 with
capacity 1; items c1, c2, c3 with capacity 1; the scenario-5 valuations). -/
def exC5 : AllocState :=
  { agentCaps := [("s1", 1), ("s2", 1)]
    itemCaps := [("c1", 1), ("c2", 1), ("c3", 1)]
    conflicts := []
    bundles := [("s1", []), ("s2", [])]
    val := [("s1", [("c1", 50), ("c2", 49), ("c3", 1)]),
            ("s2", [("c1", 48), ("c2", 46), ("c3", 6)])]
    itemConf := [] }

/-- A fresh two-agent builder: agents A and B with capacity 1 each, one
item c1 with capacity 2, unit valuations. -/
def exC1 : AllocState :=
  { agentCaps := [("A", 1), ("B", 1)]
    itemCaps := [("c1", 2)]
    conflicts := []
    bundles := [("A", []), ("B", [])]
    val := [("A", [("c1", 1)]), ("B", [("c1", 1)])]
    itemConf := [] }

/-- The state of `exC1` after agent A's single pick: A has exhausted its
capacity (and is absent from the remaining agents), while agent B and item
c1 still have remaining capacity. -/
def exC1after : AllocState :=
  { agentCaps := [("B", 1)]
    itemCaps := [("c1", 1)]
    conflicts := []
    bundles := [("A", ["c1"]), ("B", [])]
    val := [("A", [("c1", 1)]), ("B", [("c1", 1)])]
    itemConf := [] }

/-- A fresh one-agent, one-item builder (a square instance on which SP-O's
index arithmetic stays in range). -/
def exSq : AllocState :=
  { agentCaps := [("A", 1)]
    itemCaps := [("i1", 1)]
    conflicts := []
    bundles := [("A", [])]
    val := [("A", [("i1", 7)])]
    itemConf := [] }

/-- An oracle whose stage-1 solve succeeds and assigns nothing. -/
def idleOracle : Nat → IterOracle :=
  fun _ => { z := some 1, x := fun _ _ => false, w1 := 0, w2 := 0 }

/-- Number of commit-map entries for agent `a`, i.e. the number of `give`
calls the commit loop performs for that agent. -/
def countKey (a : String) (m : List (String × String)) : Nat :=
  m.countP (fun p => p.1 = a)

/-- A concrete feasible stage-1 matrix on `exSq`: the single agent takes the
single item. -/
def exX : Nat → Nat → Bool :=
  fun i j => i == 0 && j == 0

/-! ## Helper lemmas -/

/-- Python's `max(key=f)` returns an element of its input. -/
theorem pickBest_mem (f : String → Nat) :
    ∀ (t : List String) (b : String), pickBest f b t ∈ b :: t := by
  intro t
  induction t with
  | nil => intro b; simp [pickBest]
  | cons x t ih =>
    intro b
    simp only [pickBest]
    by_cases h : f x > f b
    · simp only [h, if_pos]
      have := ih x
      rcases List.mem_cons.mp this with h1 | h1
      · simp [h1]
      · simp [List.mem_cons, h1]
    · simp only [h, if_neg, ite_false]
      have := ih b
      rcases List.mem_cons.mp this with h1 | h1
      · simp [h1]
      · simp [List.mem_cons, h1]

/-- A key of an association list has a binding. -/
theorem alookup_isSome_of_mem {β : Type} {k : String} :
    ∀ {l : List (String × β)}, k ∈ akeys l → ∃ v, alookup k l = some v := by
  intro l
  induction l with
  | nil => intro h; simp [akeys] at h
  | cons p t ih =>
    intro h
    by_cases hk : p.1 = k
    · exact ⟨p.2, by simp [alookup, hk]⟩
    · have : k ∈ akeys t := by
        simp [akeys] at h ⊢
        rcases h with h | h
        · exact absurd h.symm (by simpa using hk)
        · simpa [akeys] using h
      rcases ih this with ⟨v, hv⟩
      exact ⟨v, by simp [alookup, hk, hv]⟩

/-- A pickable item satisfies every precondition of `give`, so `give`
succeeds on it. -/
theorem give_ok {s : AllocState} {a i : String} {c : Nat}
    (ha : alookup a s.agentCaps = some c)
    (hi : i ∈ remaining_items_for_agent s a) :
    give s a i = .ok (giveS s a i) := by
  have hmem := List.mem_filter.mp hi
  rcases alookup_isSome_of_mem (l := s.itemCaps) hmem.1 with ⟨v, hv⟩
  have hconf : s.conflicts.contains (a, i) = false := by
    have := hmem.2
    simp only [Bool.and_eq_true, Bool.not_eq_true'] at this
    exact this.1.1
  simp only [give, ha, hv, hconf]
  simp

/-- The loop body of `picking_sequence` never raises: every `give` it issues
satisfies the `give` precondition. -/
theorem pickTurn_ok (s : AllocState) (a : String) :
    ∃ p, pickTurn s a = .ok p := by
  unfold pickTurn
  cases ha : alookup a s.agentCaps with
  | none => exact ⟨(s, []), rfl⟩
  | some c =>
    cases hrem : remaining_items_for_agent s a with
    | nil => exact ⟨(removeAgent s a, [.removeEv a]), rfl⟩
    | cons i rest =>
      have hmem : pickBest (effective_value s a) i rest ∈ remaining_items_for_agent s a := by
        rw [hrem]; exact pickBest_mem _ rest i
      refine ⟨(giveS s a (pickBest (effective_value s a) i rest),
              [.giveEv a (pickBest (effective_value s a) i rest)]), ?_⟩
      simp [give_ok ha hmem]

/-- The cyclic loop never raises. -/
theorem runAux_ok (order : List String) :
    ∀ (fuel idx : Nat) (s : AllocState), ∃ r, runAux order fuel idx s = .ok r := by
  intro fuel
  induction fuel with
  | zero => intro idx s; exact ⟨⟨s, [], false⟩, rfl⟩
  | succ f ih =>
    intro idx s
    by_cases hd : isdone s
    · exact ⟨⟨s, [.checkDone], true⟩, by unfold runAux; rw [if_pos hd]⟩
    · rcases pickTurn_ok s (order.getD (idx % order.length) "") with ⟨⟨s', ev⟩, hp⟩
      rcases ih (idx + 1) s' with ⟨r, hr⟩
      refine ⟨⟨r.state, .checkDone :: (ev ++ r.trace), r.finished⟩, ?_⟩
      unfold runAux
      rw [if_neg hd, hp]
      simp only [hr]

/-! ## C8 -/

/-- C8: every `give` issued by `picking_sequence` satisfies `give`'s
precondition (the agent was checked to have remaining capacity, and the item
is drawn from `remaining_items_for_agent`), so the contract-violation error
branch of `give` is unreachable: the run never returns an error, for every
state, agent order and fuel. -/
theorem C8_give_error_unreachable (s : AllocState) (order : List String) (fuel : Nat) :
    ∃ r, picking_sequence s order fuel = .ok r := by
  unfold picking_sequence
  by_cases he : order.isEmpty
  · exact ⟨⟨s, [], true⟩, by simp [he]⟩
  · rcases runAux_ok order fuel 0 s with ⟨r, hr⟩
    exact ⟨r, by simp [he, hr]⟩

/-! ## C10 -/

/-- C10: calling `picking_sequence` with an empty agent order terminates at
once with the state unchanged and an empty call trace — no `isdone`, `give`
or `remove_agent_from_loop` call is made. -/
theorem C10_empty_order_frame (s : AllocState) (fuel : Nat) :
    picking_sequence s [] fuel = .ok ⟨s, [], true⟩ := rfl

/-! ## C7 -/

/-- C7 (code bug): when the stage-1 solve reports no optimal value, the
iteration does not reach its diagnostic-and-continue branch; line 83 already
multiplies the `None` result into the stage-2 objective, which raises a
program-visible error that aborts the run, for every state and every
remaining oracle content. -/
theorem C7_none_result_raises_before_check (s : AllocState)
    (x : Nat → Nat → Bool) (w1 w2 : Int) :
    SP_O_iteration s { z := none, x := x, w1 := w1, w2 := w2 } = .error .noneTypeMul := rfl

/-! ## C2 -/

/-- C2 counterexample: on the SP-O doctest state the rank-1 entry of agent
s1's column goes to c3, the item of minimal effective value, while the
most-preferred item c1 receives rank 3 — the rank matrix ranks by ascending,
not descending, effective value. -/
theorem C2_counterexample :
    rankAt (rankMat exC5) 2 0 = some 1
    ∧ rankAt (rankMat exC5) 0 0 = some 3
    ∧ (remainingItems exC5).get? 2 = some "c3"
    ∧ (remainingItems exC5).get? 0 = some "c1"
    ∧ (remainingAgents exC5).get? 0 = some "s1"
    ∧ effective_value exC5 "s1" "c1" > effective_value exC5 "s1" "c3" := by
  decide

/-- C2 amended: the rank-matrix entry of remaining item `idx` and remaining
agent `jdx` is the item's position plus one in the agent's eligible items
sorted by ascending effective value (so rank 1 is the least-preferred
eligible item), and the eligible-list length plus one — the sentinel — for
an ineligible item; `sorted_courses` is indeed an ascending-by-effective-
value permutation of the agent's eligible items. -/
theorem C2_amended_rank_matrix (s : AllocState) (idx jdx : Nat) (course student : String)
    (hi : (remainingItems s).get? idx = some course)
    (hj : (remainingAgents s).get? jdx = some student) :
    rankAt (rankMat s) idx jdx
      = some (if (sortedCourses s student).contains course
              then (sortedCourses s student).indexOf course + 1
              else (sortedCourses s student).length + 1)
    ∧ (sortedCourses s student).Perm (remaining_items_for_agent s student)
    ∧ (sortedCourses s student).Pairwise
        (fun a b => effective_value s student a ≤ effective_value s student b) := by
  refine ⟨?_, List.perm_insertionSort _ _, ?_⟩
  · unfold rankAt rankMat
    rw [List.get?_map, hi]
    simp only [Option.map_some']
    rw [List.get?_map, hj]
    simp only [Option.map_some']
  · haveI ht : IsTotal String
        (fun a b => effective_value s student a ≤ effective_value s student b) :=
      ⟨fun a b => Nat.le_total _ _⟩
    haveI htr : IsTrans String
        (fun a b => effective_value s student a ≤ effective_value s student b) :=
      ⟨fun _ _ _ hab hbc => Nat.le_trans hab hbc⟩
    exact List.sorted_insertionSort _ _

/-- Witness for C2 amended: the entry for item c1 and agent s1 on the SP-O
doctest state is rank 3 (c1 is s1's most-preferred item, and the eligible
list has length 3). -/
theorem C2_amended_witness :
    (remainingItems exC5).get? 0 = some "c1"
    ∧ (remainingAgents exC5).get? 0 = some "s1"
    ∧ rankAt (rankMat exC5) 0 0
        = some (if (sortedCourses exC5 "s1").contains "c1"
                then (sortedCourses exC5 "s1").indexOf "c1" + 1
                else (sortedCourses exC5 "s1").length + 1)
    ∧ (sortedCourses exC5 "s1").Perm (remaining_items_for_agent exC5 "s1")
    ∧ (sortedCourses exC5 "s1").Pairwise
        (fun a b => effective_value exC5 "s1" a ≤ effective_value exC5 "s1" b) := by
  refine ⟨by decide, by decide, ?_⟩
  have h := C2_amended_rank_matrix exC5 0 0 "c1" "s1" (by decide) (by decide)
  exact ⟨h.1, h.2.1, h.2.2⟩

/-! ## C3 -/

/-- C3 (code bug): on the doctest state of `SP_O.py` (three remaining items,
two remaining agents) the stage-2 constraint construction of lines 90–94
subscripts the items-by-agents rank matrix as `rank_mat[i][j]` with `i` an
agent index and `j` an item index; at `j = 2` the column index exceeds the
row length and the construction raises `IndexError` instead of producing the
claimed constraints. -/
theorem C3_rank_subscript_out_of_range :
    (remainingItems exC5).length = 3
    ∧ (remainingAgents exC5).length = 2
    ∧ buildDualConstraints exC5 (rankMat exC5) (List.range (remainingItems exC5).length)
        = .error .indexError := by
  decide

/-! ## C4 -/

/-- C4 counterexample: `round_robin` on the scenario-1 state gives Chana the
bundle c3-then-c2 in pick order (she picks her top-valued c3 first), not
c2-then-c3 as the claim's pick-ordered mapping states. -/
theorem C4_counterexample :
    (round_robin exC4 30).map (fun r => alookup "Chana" r.state.bundles)
      = .ok (some ["c3", "c2"])
    ∧ (["c3", "c2"] : List String) ≠ ["c2", "c3"] := by
  decide

/-- C4 amended: `round_robin` on the scenario-1 state finishes with the
pick-ordered bundles Alice c1,c2; Bob c1,c2,c3; Chana c3,c2; Dana c3; this
agrees with the claimed mapping up to the order inside Chana's bundle, which
is a permutation of the claimed one. -/
theorem C4_amended_round_robin_scenario1 :
    (round_robin exC4 30).map (fun r => (r.finished, r.state.bundles))
      = .ok (true,
             [("Alice", ["c1", "c2"]), ("Bob", ["c1", "c2", "c3"]),
              ("Chana", ["c3", "c2"]), ("Dana", ["c3"])])
    ∧ (["c3", "c2"] : List String).Perm ["c2", "c3"] :=
  ⟨by decide, List.isPerm_iff.mp (by decide)⟩

/-! ## C5 -/

/-- An SP-O iteration whose stage-1 solve reports no optimal value raises at
the stage-2 objective. -/
theorem SP_O_iteration_z_none {s : AllocState} {o : IterOracle} (h : o.z = none) :
    SP_O_iteration s o = .error .noneTypeMul := by
  unfold SP_O_iteration
  rw [h]

/-- An SP-O iteration whose stage-1 solve reports an optimal value proceeds
to the stage-2 constraint construction and then the commit phase. -/
theorem SP_O_iteration_z_some {s : AllocState} {o : IterOracle} {z : Int}
    (h : o.z = some z) :
    SP_O_iteration s o
      = (match buildDualConstraints s (rankMat s) (List.range (remainingItems s).length) with
         | .error e => .error e
         | .ok _ => commitGives s (assignMap s o.x)) := by
  unfold SP_O_iteration
  rw [h]

/-- C5 (code bug): on the doctest state of `SP_O.py` the run raises in its
first iteration whatever the solver returns — either the `None` stage-1
result is multiplied into the stage-2 objective, or the transposed
`rank_mat[i][j]` subscript goes out of range — so the claimed output
mapping s1 to c2 and s2 to c1 is never produced. -/
theorem C5_doctest_run_raises (oracle : Nat → IterOracle) :
    ∃ e, SP_O_run exC5 oracle = .error e := by
  have hrun : SP_O_run exC5 oracle
      = (match SP_O_iteration exC5 (oracle 0) with
         | .error e => .error e
         | .ok s' => runIterations oracle [] s' 1) := rfl
  rcases hz : (oracle 0).z with _ | z
  · refine ⟨.noneTypeMul, ?_⟩
    rw [hrun, SP_O_iteration_z_none hz]
  · refine ⟨.indexError, ?_⟩
    rw [hrun, SP_O_iteration_z_some hz]
    have hb : buildDualConstraints exC5 (rankMat exC5) (List.range (remainingItems exC5).length)
        = .error .indexError := by decide
    rw [hb]

/-! ## C6 -/

/-- Unfolding `countKey` over a cons cell. -/
theorem countKey_cons (a k v : String) (t : List (String × String)) :
    countKey a ((k, v) :: t) = countKey a t + (if k = a then 1 else 0) := by
  by_cases h : k = a <;> simp [countKey, List.countP_cons, h]

/-- Inserting under a key different from `a` leaves the count of `a`-keyed
entries unchanged. -/
theorem countKey_dinsert_of_ne {k a : String} (v : String) (h : k ≠ a) :
    ∀ m, countKey a (dinsert k v m) = countKey a m := by
  intro m
  induction m with
  | nil => simp [countKey, dinsert, List.countP_cons, h]
  | cons p t ih =>
    cases p with
    | mk k' v' =>
      by_cases hk : k' = k
      · show countKey a (if k' = k then (k, v) :: t else (k', v') :: dinsert k v t)
            = countKey a ((k', v') :: t)
        rw [if_pos hk, countKey_cons, countKey_cons, hk]
      · show countKey a (if k' = k then (k, v) :: t else (k', v') :: dinsert k v t)
            = countKey a ((k', v') :: t)
        rw [if_neg hk, countKey_cons, countKey_cons, ih]

/-- Dict insertion keeps at most one entry per key. -/
theorem countKey_dinsert_le {a : String} (k v : String) :
    ∀ m, countKey a m ≤ 1 → countKey a (dinsert k v m) ≤ 1 := by
  intro m
  induction m with
  | nil =>
    intro _
    show countKey a [(k, v)] ≤ 1
    rw [show ([(k, v)] : List (String × String)) = (k, v) :: [] from rfl, countKey_cons]
    by_cases h : k = a <;> simp [countKey, h]
  | cons p t ih =>
    intro hm
    cases p with
    | mk k' v' =>
      rw [countKey_cons] at hm
      by_cases hk : k' = k
      · show countKey a (if k' = k then (k, v) :: t else (k', v') :: dinsert k v t) ≤ 1
        rw [if_pos hk, countKey_cons, ← hk]
        exact hm
      · show countKey a (if k' = k then (k, v) :: t else (k', v') :: dinsert k v t) ≤ 1
        rw [if_neg hk, countKey_cons]
        by_cases ha : k' = a
        · rw [if_pos ha] at hm ⊢
          have hka : k ≠ a := fun hkk => hk (by rw [ha, hkk])
          rw [countKey_dinsert_of_ne v hka t]
          exact hm
        · rw [if_neg ha] at hm ⊢
          have := ih (by omega)
          omega

/-- Any fold whose step keeps the per-key count at most one keeps it at most
one. -/
theorem foldl_countKey_le {β : Type} (step : List (String × String) → β → List (String × String))
    (a : String) (hstep : ∀ m b, countKey a m ≤ 1 → countKey a (step m b) ≤ 1) :
    ∀ (l : List β) (m), countKey a m ≤ 1 → countKey a (l.foldl step m) ≤ 1 := by
  intro l
  induction l with
  | nil => intro m hm; exact hm
  | cons b t ih => intro m hm; exact ih (step m b) (hstep m b hm)

/-- C6: the stage-1 constraint list bounds every remaining agent's column
sum by one, and the commit map — a dict keyed by agent — holds at most one
entry per agent for every boolean solution matrix, so each iteration issues
at most one `give` per agent. -/
theorem C6_at_most_one_item_per_agent (s : AllocState) (x : Nat → Nat → Bool)
    (j : Nat) (a : String) :
    (stage1Sat s x = true → j < (remainingAgents s).length → colSum s x j ≤ 1)
    ∧ countKey a (assignMap s x) ≤ 1 := by
  constructor
  · intro hs hj
    unfold stage1Sat at hs
    rw [Bool.and_eq_true] at hs
    have h3 := List.all_eq_true.mp hs.2 j (List.mem_range.mpr hj)
    exact of_decide_eq_true h3
  · unfold assignMap
    refine foldl_countKey_le _ a ?_ _ [] (by simp [countKey])
    intro m b hm
    refine foldl_countKey_le _ a ?_ _ m hm
    intro m2 q hm2
    by_cases hx : x q.1 b.1
    · rw [if_pos hx]
      exact countKey_dinsert_le _ _ _ hm2
    · rw [if_neg hx]
      exact hm2

/-- Witness for C6: the single-agent square state with the matrix assigning
the one item to the one agent satisfies the stage-1 constraints, and both
bounds hold there. -/
theorem C6_witness :
    stage1Sat exSq exX = true
    ∧ 0 < (remainingAgents exSq).length
    ∧ colSum exSq exX 0 ≤ 1
    ∧ countKey "A" (assignMap exSq exX) ≤ 1 :=
  ⟨by decide, by decide,
   (C6_at_most_one_item_per_agent exSq exX 0 "A").1 (by decide) (by decide),
   (C6_at_most_one_item_per_agent exSq exX 0 "A").2⟩

/-! ## C9 -/

/-- C9 counterexample: with an agent order naming an agent that has no
remaining capacity, `serial_dictatorship` raises `KeyError` on the
`remaining_agent_capacities[agent]` subscript, while `picking_sequence` on
the spec's flattened order (that agent contributing zero copies) returns
normally — the two runs differ. -/
theorem C9_counterexample :
    serial_dictatorship exC1 ["ghost"] 5
      ≠ picking_sequence exC1 (flatOrderSpec exC1 ["ghost"]) 5 := by
  decide

/-- Flattening succeeds and equals the spec's flattened order when every
agent of the order has a remaining-capacity binding. -/
theorem flattenOrder_ok (s : AllocState) :
    ∀ (order : List String),
      (∀ a ∈ order, (alookup a s.agentCaps).isSome) →
      flattenOrder s order = .ok (flatOrderSpec s order) := by
  intro order
  induction order with
  | nil => intro _; rfl
  | cons a t ih =>
    intro h
    have ha := h a (by simp)
    cases hl : alookup a s.agentCaps with
    | none => rw [hl] at ha; simp at ha
    | some c =>
      unfold flattenOrder
      rw [hl, ih (fun b hb => h b (by simp [hb]))]
      unfold flatOrderSpec
      simp [hl]

/-- C9 amended: provided every agent of `agent_order` still has a
remaining-capacity binding, `serial_dictatorship(alloc, agent_order)` is the
very same run as `picking_sequence` on the flattened order in which each
agent appears consecutively as many times as its remaining capacity. -/
theorem C9_amended_serial_dictatorship_refines (s : AllocState)
    (order : List String) (fuel : Nat)
    (h : ∀ a ∈ order, (alookup a s.agentCaps).isSome) :
    serial_dictatorship s order fuel = picking_sequence s (flatOrderSpec s order) fuel := by
  unfold serial_dictatorship
  rw [flattenOrder_ok s order h]

/-- Witness for C9: on the fresh two-agent state with the full order, the
flattened order is A, B and the two runs agree. -/
theorem C9_witness :
    (∀ a ∈ (["A", "B"] : List String), (alookup a exC1.agentCaps).isSome)
    ∧ serial_dictatorship exC1 ["A", "B"] 10
        = picking_sequence exC1 (flatOrderSpec exC1 ["A", "B"]) 10 :=
  ⟨by decide, C9_amended_serial_dictatorship_refines exC1 ["A", "B"] 10 (by decide)⟩

/-! ## C1 -/

/-- Once the only agent named by the order has exhausted its capacity while
another agent and an item remain, every further loop turn is a pure skip:
the state never changes and the loop never ends. -/
theorem runAux_frozen :
    ∀ (f idx : Nat),
      runAux ["A"] f idx exC1after
        = .ok ⟨exC1after, List.replicate f .checkDone, false⟩ := by
  intro f
  induction f with
  | zero => intro idx; rfl
  | succ f ih =>
    intro idx
    unfold runAux
    rw [if_neg (by decide : ¬ isdone exC1after = true)]
    have hidx : ((["A"] : List String).getD (idx % (["A"] : List String).length) "") = "A" := by
      simp [Nat.mod_one]
    rw [hidx]
    rw [show pickTurn exC1after "A" = .ok (exC1after, ([] : List Event)) from by decide]
    simp only [ih]
    simp [List.replicate_succ]

/-- C1 counterexample: on a fresh instance with two unit-capacity agents A
and B and an item of capacity two, the picking sequence driven by the order
containing only A never terminates: after A's one pick, B still has
capacity and an item remains, so `isdone` stays false while every turn skips
the exhausted A. -/
theorem C1_counterexample : ¬ pickingTerminates exC1 ["A"] := by
  have key : ∀ (fuel : Nat) (r : RunRes),
      picking_sequence exC1 ["A"] fuel = .ok r → r.finished = false := by
    intro fuel r h
    match fuel with
    | 0 =>
      rw [show picking_sequence exC1 ["A"] 0 = .ok ⟨exC1, [], false⟩ from rfl] at h
      cases h
      rfl
    | f + 1 =>
      have h1 : picking_sequence exC1 ["A"] (f + 1)
          = .ok ⟨exC1after,
                 .checkDone :: ([.giveEv "A" "c1"] ++ List.replicate f .checkDone),
                 false⟩ := by
        show runAux ["A"] (f + 1) 0 exC1 = _
        unfold runAux
        rw [if_neg (by decide : ¬ isdone exC1 = true)]
        rw [show ((["A"] : List String).getD (0 % (["A"] : List String).length) "") = "A"
            from rfl]
        rw [show pickTurn exC1 "A" = .ok (exC1after, [.giveEv "A" "c1"]) from by decide]
        simp only [runAux_frozen]
      rw [h1] at h
      cases h
      rfl
  rintro ⟨fuel, r, hr, hfin⟩
  rw [key fuel r hr] at hfin
  cases hfin

/-- Decrementing an existing binding strictly decreases the measure. -/
theorem capMeasure_adec_lt {k : String} {c : Nat} :
    ∀ {l : List (String × Nat)}, alookup k l = some c →
      capMeasure (adec k l) < capMeasure l := by
  intro l
  induction l with
  | nil => intro h; cases h
  | cons p t ih =>
    intro h
    cases p with
    | mk k' v =>
      by_cases hk : k' = k
      · show capMeasure (if k' = k then (if v ≤ 1 then t else (k', v - 1) :: t)
                         else (k', v) :: adec k t) < _
        rw [if_pos hk]
        by_cases hv : v ≤ 1
        · rw [if_pos hv]
          simp only [capMeasure, List.foldr_cons]
          omega
        · rw [if_neg hv]
          simp only [capMeasure, List.foldr_cons]
          omega
      · show capMeasure (if k' = k then (if v ≤ 1 then t else (k', v - 1) :: t)
                         else (k', v) :: adec k t) < _
        rw [if_neg hk]
        have h' : alookup k t = some c := by
          have : alookup k ((k', v) :: t) = alookup k t := by
            simp [alookup, hk]
          rw [← this]; exact h
        have := ih h'
        simp only [capMeasure, List.foldr_cons] at this ⊢
        omega

/-- Erasing an existing binding strictly decreases the measure. -/
theorem capMeasure_aerase_lt {k : String} {c : Nat} :
    ∀ {l : List (String × Nat)}, alookup k l = some c →
      capMeasure (aerase k l) < capMeasure l := by
  intro l
  induction l with
  | nil => intro h; cases h
  | cons p t ih =>
    intro h
    cases p with
    | mk k' v =>
      by_cases hk : k' = k
      · show capMeasure (if k' = k then t else (k', v) :: aerase k t) < _
        rw [if_pos hk]
        simp only [capMeasure, List.foldr_cons]
        omega
      · show capMeasure (if k' = k then t else (k', v) :: aerase k t) < _
        rw [if_neg hk]
        have h' : alookup k t = some c := by
          have : alookup k ((k', v) :: t) = alookup k t := by
            simp [alookup, hk]
          rw [← this]; exact h
        have := ih h'
        simp only [capMeasure, List.foldr_cons] at this ⊢
        omega

/-- Decrementing never introduces a new key. -/
theorem akeys_adec_subset {k : String} :
    ∀ (l : List (String × Nat)) (x : String), x ∈ akeys (adec k l) → x ∈ akeys l := by
  intro l
  induction l with
  | nil => intro x hx; exact hx
  | cons p t ih =>
    intro x hx
    cases p with
    | mk k' v =>
      by_cases hk : k' = k
      · have hx' : x ∈ akeys (if k' = k then (if v ≤ 1 then t else (k', v - 1) :: t)
                              else (k', v) :: adec k t) := hx
        rw [if_pos hk] at hx'
        by_cases hv : v ≤ 1
        · rw [if_pos hv] at hx'
          simp [akeys] at hx' ⊢
          exact Or.inr hx'
        · rw [if_neg hv] at hx'
          simp [akeys] at hx' ⊢
          exact hx'
      · have hx' : x ∈ akeys (if k' = k then (if v ≤ 1 then t else (k', v - 1) :: t)
                              else (k', v) :: adec k t) := hx
        rw [if_neg hk] at hx'
        simp [akeys] at hx' ⊢
        rcases hx' with h | h
        · exact Or.inl h
        · exact Or.inr (by simpa [akeys] using ih x (by simpa [akeys] using h))

/-- Erasing never introduces a new key. -/
theorem akeys_aerase_subset {k : String} :
    ∀ (l : List (String × Nat)) (x : String), x ∈ akeys (aerase k l) → x ∈ akeys l := by
  intro l
  induction l with
  | nil => intro x hx; exact hx
  | cons p t ih =>
    intro x hx
    cases p with
    | mk k' v =>
      by_cases hk : k' = k
      · have hx' : x ∈ akeys (if k' = k then t else (k', v) :: aerase k t) := hx
        rw [if_pos hk] at hx'
        simp [akeys] at hx' ⊢
        exact Or.inr hx'
      · have hx' : x ∈ akeys (if k' = k then t else (k', v) :: aerase k t) := hx
        rw [if_neg hk] at hx'
        simp [akeys] at hx' ⊢
        rcases hx' with h | h
        · exact Or.inl h
        · exact Or.inr (by simpa [akeys] using ih x (by simpa [akeys] using h))

/-- A turn for an agent without remaining capacity is a pure skip. -/
theorem pickTurn_skip {s : AllocState} {a : String}
    (h : alookup a s.agentCaps = none) : pickTurn s a = .ok (s, []) := by
  unfold pickTurn
  rw [h]

/-- A turn for an agent with remaining capacity succeeds, strictly decreases
the measure, and only removes remaining agents. -/
theorem pickTurn_progress {s : AllocState} {a : String} {c : Nat}
    (h : alookup a s.agentCaps = some c) :
    ∃ s' ev, pickTurn s a = .ok (s', ev)
      ∧ stateMeasure s' < stateMeasure s
      ∧ (∀ x ∈ remainingAgents s', x ∈ remainingAgents s) := by
  cases hrem : remaining_items_for_agent s a with
  | nil =>
    have hpt : pickTurn s a = .ok (removeAgent s a, [.removeEv a]) := by
      unfold pickTurn
      rw [h, hrem]
    exact ⟨_, _, hpt, capMeasure_aerase_lt h,
           fun x hx => akeys_aerase_subset _ x hx⟩
  | cons i rest =>
    have hmem : pickBest (effective_value s a) i rest ∈ remaining_items_for_agent s a := by
      rw [hrem]; exact pickBest_mem _ rest i
    have hpt : pickTurn s a
        = .ok (giveS s a (pickBest (effective_value s a) i rest),
               [.giveEv a (pickBest (effective_value s a) i rest)]) := by
      unfold pickTurn
      rw [h, hrem]
      simp [give_ok h hmem]
    exact ⟨_, _, hpt, capMeasure_adec_lt h,
           fun x hx => akeys_adec_subset _ x hx⟩

/-- Any residue class modulo the order length is hit within one lap of the
cyclic index. -/
theorem exists_mod_hit (len idx m : Nat) (hlen : 0 < len) (hm : m < len) :
    ∃ d, d < len ∧ (idx + d) % len = m := by
  refine ⟨(m + (len - idx % len)) % len, Nat.mod_lt _ hlen, ?_⟩
  have hr : idx % len < len := Nat.mod_lt _ hlen
  rw [Nat.add_mod, Nat.mod_mod, ← Nat.add_mod]
  have hsplit : idx + (m + (len - idx % len)) = len * (idx / len) + (m + len) := by
    have hdm := Nat.div_add_mod idx len
    omega
  rw [hsplit, Nat.mul_add_mod, Nat.add_mod_right]
  exact Nat.mod_eq_of_lt hm

/-- A run that exhausts its fuel composes with a continuation run. -/
theorem runAux_append (order : List String) :
    ∀ (f idx : Nat) (s s2 : AllocState) (tr : List Event) (g : Nat) (r : RunRes),
      runAux order f idx s = .ok ⟨s2, tr, false⟩ →
      runAux order g (idx + f) s2 = .ok r →
      runAux order (f + g) idx s = .ok ⟨r.state, tr ++ r.trace, r.finished⟩ := by
  intro f
  induction f with
  | zero =>
    intro idx s s2 tr g r h1 h2
    unfold runAux at h1
    cases h1
    rw [Nat.zero_add]
    simp only [Nat.add_zero] at h2
    rw [h2]
    simp
  | succ f ih =>
    intro idx s s2 tr g r h1 h2
    rw [Nat.succ_add]
    unfold runAux at h1 ⊢
    by_cases hd : isdone s
    · rw [if_pos hd] at h1
      cases h1
    · rw [if_neg hd] at h1 ⊢
      cases hp : pickTurn s (order.getD (idx % order.length) "") with
      | error e =>
        rw [hp] at h1
        simp at h1
      | ok pr =>
        obtain ⟨s', ev⟩ := pr
        cases hrf : runAux order f (idx + 1) s' with
        | error e =>
          simp only [hp, hrf] at h1
          cases h1
        | ok r1 =>
          obtain ⟨r1s, r1t, r1f⟩ := r1
          simp only [hp, hrf, Except.ok.injEq, RunRes.mk.injEq] at h1
          obtain ⟨hs2, htr, hf⟩ := h1
          have h2' : runAux order g ((idx + 1) + f) r1s = .ok r := by
            rw [show (idx + 1) + f = idx + (f + 1) from by omega, hs2]
            exact h2
          have hrf' : runAux order f (idx + 1) s' = .ok ⟨r1s, r1t, false⟩ := by
            rw [hrf, hf]
          have hcomp := ih (idx + 1) s' r1s r1t g r hrf' h2'
          simp only [hcomp]
          rw [← htr]
          simp [List.append_assoc]

/-- Running the SP-O iteration list to completion performs one count per
iteration. -/
theorem runIterations_count (oracle : Nat → IterOracle) :
    ∀ (l : List Nat) (s : AllocState) (c : Nat) (s2 : AllocState) (n : Nat),
      runIterations oracle l s c = .ok (s2, n) → n = c + l.length := by
  intro l
  induction l with
  | nil =>
    intro s c s2 n h
    unfold runIterations at h
    cases h
    simp
  | cons it rest ih =>
    intro s c s2 n h
    unfold runIterations at h
    cases hit : SP_O_iteration s (oracle it) with
    | error e => rw [hit] at h; cases h
    | ok s' =>
      rw [hit] at h
      have := ih s' (c + 1) s2 n h
      simp [this, List.length_cons]
      omega

/-- Within one lap of the cyclic order, a run from a not-done state either
ends or strictly decreases the measure, provided some agent with remaining
capacity sits within the lap. -/
theorem pass_progress (order : List String) :
    ∀ (k : Nat) (s : AllocState) (idx : Nat),
      isdone s = false →
      (∃ d, d < k ∧ ∃ c, alookup (order.getD ((idx + d) % order.length) "") s.agentCaps = some c) →
      ∃ j s2 tr b, 1 ≤ j ∧ j ≤ k ∧ runAux order j idx s = .ok ⟨s2, tr, b⟩
        ∧ (b = true ∨ stateMeasure s2 < stateMeasure s)
        ∧ (∀ x ∈ remainingAgents s2, x ∈ remainingAgents s) := by
  intro k
  induction k with
  | zero =>
    rintro s idx hd ⟨d, hdk, _⟩
    omega
  | succ k ih =>
    rintro s idx hd ⟨d, hdk, c, hc⟩
    cases h0 : alookup (order.getD (idx % order.length) "") s.agentCaps with
    | some c0 =>
      rcases pickTurn_progress h0 with ⟨s', ev, hpt, hlt, hsub⟩
      refine ⟨1, s', .checkDone :: (ev ++ []), false, le_refl 1, by omega, ?_,
              Or.inr hlt, hsub⟩
      unfold runAux
      rw [if_neg (by simp [hd]), hpt]
      rfl
    | none =>
      have hd0 : d ≠ 0 := by
        rintro rfl
        rw [Nat.add_zero] at hc
        rw [hc] at h0
        cases h0
      obtain ⟨d', rfl⟩ : ∃ d', d = d' + 1 := ⟨d - 1, by omega⟩
      have hc' : ∃ c', alookup (order.getD (((idx + 1) + d') % order.length) "")
          s.agentCaps = some c' := by
        refine ⟨c, ?_⟩
        rw [show (idx + 1) + d' = idx + (d' + 1) from by omega]
        exact hc
      rcases ih s (idx + 1) hd ⟨d', by omega, hc'⟩ with
        ⟨j, s2, tr, b, hj1, hjk, hrun, hprog, hsub⟩
      refine ⟨j + 1, s2, .checkDone :: ([] ++ tr), b, by omega, by omega, ?_, hprog, hsub⟩
      unfold runAux
      rw [if_neg (by simp [hd]), pickTurn_skip h0]
      simp only [hrun]

/-- When every remaining agent occurs in the (nonempty) order, the cyclic
loop ends on its own within one lap per unit of measure. -/
theorem runAux_terminates (order : List String) (hne : order ≠ []) :
    ∀ (n : Nat) (s : AllocState) (idx : Nat),
      (∀ x ∈ remainingAgents s, x ∈ order) →
      stateMeasure s ≤ n →
      ∃ f r, f ≤ order.length * n + 1 ∧ runAux order f idx s = .ok r
        ∧ r.finished = true := by
  intro n
  induction n with
  | zero =>
    intro s idx hcov hm
    have hnil : s.agentCaps = [] := by
      cases hl : s.agentCaps with
      | nil => rfl
      | cons p t =>
        exfalso
        rw [stateMeasure, capMeasure, hl] at hm
        simp [List.foldr_cons] at hm
    have hdone : isdone s = true := by simp [isdone, hnil]
    refine ⟨1, ⟨s, [.checkDone], true⟩, by omega, ?_, rfl⟩
    unfold runAux
    rw [if_pos hdone]
  | succ n ih =>
    intro s idx hcov hm
    cases hd : isdone s with
    | true =>
      refine ⟨1, ⟨s, [.checkDone], true⟩, ?_, ?_, rfl⟩
      · have : order.length * (n + 1) = order.length * n + order.length := by ring
        omega
      · unfold runAux
        rw [if_pos hd]
    | false =>
      have hne2 : s.agentCaps ≠ [] := by
        intro hnil
        rw [isdone] at hd
        simp [hnil] at hd
      obtain ⟨p, t, hpt⟩ := List.exists_cons_of_ne_nil hne2
      have hmem : p.1 ∈ remainingAgents s := by
        rw [remainingAgents, akeys, hpt]
        simp
      have hin : p.1 ∈ order := hcov _ hmem
      obtain ⟨m, hmlen, hget⟩ := List.getElem_of_mem hin
      have hlen : 0 < order.length := List.length_pos.mpr hne
      obtain ⟨d, hdlen, hmod⟩ := exists_mod_hit order.length idx m hlen hmlen
      have hlook : ∃ c, alookup (order.getD ((idx + d) % order.length) "")
          s.agentCaps = some c := by
        refine ⟨p.2, ?_⟩
        have hgd : order.getD ((idx + d) % order.length) "" = p.1 := by
          rw [hmod, List.getD_eq_getElem?_getD, List.getElem?_eq_getElem hmlen]
          simp [hget]
        rw [hgd, hpt]
        simp [alookup]
      rcases pass_progress order order.length s idx hd ⟨d, hdlen, hlook⟩ with
        ⟨j, s2, tr, b, hj1, hjlen, hrun, hprog, hsub⟩
      cases b with
      | true =>
        refine ⟨j, ⟨s2, tr, true⟩, ?_, hrun, rfl⟩
        have : order.length * (n + 1) = order.length * n + order.length := by ring
        omega
      | false =>
        have hlt : stateMeasure s2 < stateMeasure s := by
          rcases hprog with h | h
          · cases h
          · exact h
        have hcov2 : ∀ x ∈ remainingAgents s2, x ∈ order := fun x hx => hcov x (hsub x hx)
        rcases ih s2 (idx + j) hcov2 (by omega) with ⟨g, r, hg, hrun2, hfin⟩
        refine ⟨j + g, ⟨r.state, tr ++ r.trace, r.finished⟩, ?_, ?_, by simp [hfin]⟩
        · have : order.length * (n + 1) = order.length * n + order.length := by ring
          omega
        · exact runAux_append order j idx s s2 tr g r hrun hrun2

/-- C1 amended: `picking_sequence` terminates whenever every agent with
remaining capacity appears in the agent order (within one lap per unit of
remaining measure), but not in general — see the counterexample for an
omitted agent; and an `SP_O_function` run that completes without raising
performs exactly as many iterations as the largest remaining per-agent
capacity at start. -/
theorem C1_amended_termination (s : AllocState) (order : List String)
    (oracle : Nat → IterOracle) (s2 : AllocState) (n : Nat)
    (hcov : coverage s order) :
    (∃ fuel r, fuel ≤ order.length * stateMeasure s + 1
       ∧ picking_sequence s order fuel = .ok r ∧ r.finished = true)
    ∧ (SP_O_run s oracle = .ok (s2, n) → n = maxCap s) := by
  constructor
  · by_cases hne : order = []
    · subst hne
      exact ⟨0, ⟨s, [], true⟩, by omega, rfl, rfl⟩
    · rcases runAux_terminates order hne (stateMeasure s) s 0 hcov le_rfl with
        ⟨f, r, hf, hrun, hfin⟩
      refine ⟨f, r, hf, ?_, hfin⟩
      unfold picking_sequence
      rw [if_neg (by simp [hne])]
      exact hrun
  · intro h
    unfold SP_O_run at h
    by_cases he : s.agentCaps.isEmpty
    · rw [if_pos he] at h
      cases h
    · rw [if_neg he] at h
      have := runIterations_count oracle (List.range (maxCap s)) s 0 s2 n h
      simpa [List.length_range] using this

/-- Witness for C1 amended: the one-agent square state with the covering
order terminates, and its SP-O run with a benign oracle completes in exactly
one iteration, the largest remaining capacity. -/
theorem C1_witness :
    coverage exSq ["A"]
    ∧ SP_O_run exSq idleOracle = .ok (exSq, 1)
    ∧ (∃ fuel r, fuel ≤ (["A"] : List String).length * stateMeasure exSq + 1
         ∧ picking_sequence exSq ["A"] fuel = .ok r ∧ r.finished = true)
    ∧ 1 = maxCap exSq := by
  have hcov : coverage exSq ["A"] := by
    show ∀ x ∈ remainingAgents exSq, x ∈ (["A"] : List String)
    decide
  have h := C1_amended_termination exSq ["A"] idleOracle exSq 1 hcov
  exact ⟨hcov, by decide, h.1, h.2 (by decide)⟩

end FairAlloc
